import Mathlib

/-!
Verification development for the project discovery and activity
classification engine of the `mcp-projects` repository.  The TypeScript
sources are shallowly embedded: each subprocess or filesystem effect is
represented by an explicit input (a `GitEnv` record for the git
subprocess results, a filesystem tree for the fallback walk, lists of
rows for the SQLite tables), and the control flow of each function is
translated directly from the source.
-/

/-! ## Git synchronization classifier (src/git.ts) -/

/-- The closed enumeration of synchronization states, from
`src/git.ts` (`export type SyncStatus = ...`). -/
inductive SyncStatus where
  | Synced
  | Ahead
  | Behind
  | Diverged
  | Unknown
  | NoRemote
deriving DecidableEq, Repr

/-- The record returned by `getGitInfo` (`interface GitInfo` in
`src/git.ts`). -/
structure GitInfo where
  remoteUrl : Option String
  branch : Option String
  syncStatus : SyncStatus
deriving DecidableEq, Repr

/-- Abstract outcome of the subprocess calls made by `getGitInfo` for one
repository path: the result of `git rev-parse --abbrev-ref HEAD` (`none`
when the command fails: not a repository, or no commits yet), the result
of `git remote get-url origin` (`none` when no origin remote is
configured), and the joint result of the fetch plus the three
`rev-parse`/`merge-base` calls (`none` when any of them fails: network
unavailable, upstream not set; `some (lcl, remote, base)` with the three
trimmed commit hashes on success). -/
structure GitEnv where
  branchResult : Option String
  remoteUrlResult : Option String
  hashResult : Option (String × String × String)
deriving DecidableEq, Repr

/-- Shallow embedding of `getGitInfo` from `src/git.ts`.  Each `try`
block around a subprocess call becomes a `match` on the corresponding
field of the environment; the inner `catch` of step 3 leaves
`syncStatus` at its initial value `Unknown` while keeping the already
resolved branch and remote URL. -/
def getGitInfo (env : GitEnv) : GitInfo :=
  match env.branchResult with
  | none => { remoteUrl := none, branch := none, syncStatus := .Unknown }
  | some branch =>
    match env.remoteUrlResult with
    | none => { remoteUrl := none, branch := some branch, syncStatus := .NoRemote }
    | some remoteUrl =>
      match env.hashResult with
      | none =>
          { remoteUrl := some remoteUrl, branch := some branch, syncStatus := .Unknown }
      | some (lcl, remote, base) =>
        let syncStatus :=
          if lcl = remote then SyncStatus.Synced
          else if lcl = base then SyncStatus.Behind
          else if remote = base then SyncStatus.Ahead
          else SyncStatus.Diverged
        { remoteUrl := some remoteUrl, branch := some branch, syncStatus := syncStatus }

/-- C1: the synchronization classifier obeys the four-way decision table
over the three resolved hashes (local, remote, merge base): equal local
and remote gives `Synced`; otherwise local equal to base gives `Behind`;
otherwise remote equal to base gives `Ahead`; otherwise `Diverged`.
When the branch cannot be resolved the result is
`{remoteUrl := none, branch := none, syncStatus := Unknown}`, and when
the branch resolves but no origin remote is configured the result is
`{remoteUrl := none, branch, syncStatus := NoRemote}`. -/
theorem getGitInfo_decision_table (env : GitEnv) :
    (env.branchResult = none →
      getGitInfo env = ⟨none, none, .Unknown⟩) ∧
    (∀ b, env.branchResult = some b → env.remoteUrlResult = none →
      getGitInfo env = ⟨none, some b, .NoRemote⟩) ∧
    (∀ b u l r m, env.branchResult = some b → env.remoteUrlResult = some u →
      env.hashResult = some (l, r, m) →
      ((l = r → getGitInfo env = ⟨some u, some b, .Synced⟩) ∧
       (l ≠ r → l = m → getGitInfo env = ⟨some u, some b, .Behind⟩) ∧
       (l ≠ r → l ≠ m → r = m → getGitInfo env = ⟨some u, some b, .Ahead⟩) ∧
       (l ≠ r → l ≠ m → r ≠ m → getGitInfo env = ⟨some u, some b, .Diverged⟩))) := by
  obtain ⟨ob, ou, oh⟩ := env
  refine ⟨?_, ?_, ?_⟩
  · rintro rfl
    rfl
  · rintro b rfl rfl
    rfl
  · rintro b u l r m rfl rfl rfl
    refine ⟨?_, ?_, ?_, ?_⟩
    · intro h
      simp [getGitInfo, h]
    · intro h1 h2
      subst h2
      simp [getGitInfo, h1]
    · intro h1 h2 h3
      subst h3
      simp [getGitInfo, h1, h2]
    · intro h1 h2 h3
      simp [getGitInfo, h1, h2, h3]

/-- Witness for C1: a concrete triple with local equal to base but not to
the remote is classified `Behind`, with branch and remote URL present. -/
theorem getGitInfo_decision_table_witness :
    getGitInfo ⟨some "main", some "git@host:repo", some ("a1", "b2", "a1")⟩ =
      ⟨some "git@host:repo", some "main", .Behind⟩ := by
  have h := getGitInfo_decision_table ⟨some "main", some "git@host:repo", some ("a1", "b2", "a1")⟩
  exact (h.2.2 "main" "git@host:repo" "a1" "b2" "a1" rfl rfl rfl).2.1 (by decide) rfl

/-- C7: when branch and origin remote URL have been resolved but the
fetch or hash resolution fails (`hashResult = none`), the classifier
returns the already resolved branch and remote URL with status
`Unknown`; the failure is swallowed (the function returns a value, it
does not propagate an error). -/
theorem getGitInfo_fetch_failure_keeps_context (b u : String) :
    getGitInfo ⟨some b, some u, none⟩ = ⟨some u, some b, .Unknown⟩ := rfl

/-! ## Keyed upsert (the SQLite `INSERT ... ON CONFLICT ... DO UPDATE` pattern)

Both `upsertProject` and `insertActivityStats` in `src/db.ts` issue an
insert with an `ON CONFLICT(<natural key>) DO UPDATE` clause.  A table is
modelled as a list of rows whose natural keys are pairwise distinct; the
upsert either appends a fresh row or rewrites the unique row with the
same key, combining the old row and the incoming one with a
statement-specific `merge` function. -/

/-- Generic upsert on a list of rows keyed by `key`.  When a row with the
incoming key exists it is replaced by `merge old incoming`; otherwise the
incoming row is appended. -/
def keyedUpsert {α κ : Type} [DecidableEq κ] (key : α → κ) (merge : α → α → α)
    (tbl : List α) (x : α) : List α :=
  if tbl.any (fun y => decide (key y = key x)) then
    tbl.map (fun y => if key y = key x then merge y x else y)
  else
    tbl ++ [x]

section KeyedUpsert

variable {α κ : Type} [DecidableEq κ] (key : α → κ) (merge : α → α → α)

/-- A merge that keeps the key of the incoming row keeps every key of the
mapped table unchanged. -/
theorem keyedUpsert_map_key
    (hmk : ∀ a b, key a = key b → key (merge a b) = key b) (tbl : List α) (x : α) :
    (keyedUpsert key merge tbl x).map key = tbl.map key ∨
      (keyedUpsert key merge tbl x).map key = tbl.map key ++ [key x] := by
  unfold keyedUpsert
  by_cases h : tbl.any (fun y => decide (key y = key x)) = true
  · left
    simp only [h, if_true, List.map_map]
    refine List.map_congr_left ?_
    intro a _
    by_cases hka : key a = key x
    · simp [Function.comp, hka, hmk a x hka]
    · simp [Function.comp, hka]
  · right
    simp [h]

/-- Keys stay pairwise distinct under `keyedUpsert`. -/
theorem keyedUpsert_nodup
    (hmk : ∀ a b, key a = key b → key (merge a b) = key b) (tbl : List α) (x : α)
    (hnd : (tbl.map key).Nodup) :
    ((keyedUpsert key merge tbl x).map key).Nodup := by
  rcases keyedUpsert_map_key key merge hmk tbl x with h | h
  · rw [h]; exact hnd
  · rw [h]
    have hx : key x ∉ tbl.map key := by
      unfold keyedUpsert at h
      by_cases hany : tbl.any (fun y => decide (key y = key x)) = true
      · exfalso
        simp only [hany, if_true, List.map_map] at h
        have := congrArg List.length h
        simp at this
      · intro hmem
        rcases List.mem_map.mp hmem with ⟨a, ha, hka⟩
        exact hany (List.any_eq_true.mpr ⟨a, ha, by simp [hka]⟩)
    simp [List.nodup_append, hnd, hx]

/-- Rewriting the rows whose key matches the incoming one does not change
a filter on any other key. -/
theorem filter_map_upd_ne
    (hmk : ∀ a b, key a = key b → key (merge a b) = key b) (x : α) (k : κ)
    (hne : k ≠ key x) :
    ∀ t : List α,
      (t.map (fun y => if key y = key x then merge y x else y)).filter
          (fun y => decide (key y = k)) =
        t.filter (fun y => decide (key y = k))
  | [] => rfl
  | a :: t => by
    by_cases hka : key a = key x
    · have hm : key (merge a x) = key x := hmk a x hka
      have hk1 : ¬ key (merge a x) = k := by rw [hm]; exact fun h => hne h.symm
      have hk2 : ¬ key a = k := by rw [hka]; exact fun h => hne h.symm
      have hk3 : ¬ key x = k := fun h => hne h.symm
      simp [List.filter_cons, hka, hk1, hk2, hk3, filter_map_upd_ne hmk x k hne t]
    · simp [List.filter_cons, hka, filter_map_upd_ne hmk x k hne t]

/-- Rewriting the unique row whose key matches the incoming one turns a
filter on that key from `[old]` into `[merge old x]`. -/
theorem filter_map_upd_self
    (hmk : ∀ a b, key a = key b → key (merge a b) = key b) (x old : α) :
    ∀ t : List α, t.filter (fun y => decide (key y = key x)) = [old] →
      (t.map (fun y => if key y = key x then merge y x else y)).filter
          (fun y => decide (key y = key x)) = [merge old x]
  | [], h => by simp at h
  | a :: t, h => by
    by_cases hka : key a = key x
    · have hm : key (merge a x) = key x := hmk a x hka
      have h' : a = old ∧ t.filter (fun y => decide (key y = key x)) = [] := by
        simpa [List.filter_cons, hka] using h
      obtain ⟨rfl, ht⟩ := h'
      have hrest : (t.map (fun y => if key y = key x then merge y x else y)).filter
          (fun y => decide (key y = key x)) = [] := by
        rw [List.filter_eq_nil_iff]
        intro y hy
        rcases List.mem_map.mp hy with ⟨z, hz, rfl⟩
        have hz' : ¬ key z = key x := by
          intro hk
          have : z ∈ t.filter (fun y => decide (key y = key x)) :=
            List.mem_filter.mpr ⟨hz, by simp [hk]⟩
          simp [ht] at this
        simp [hz']
      simp [List.filter_cons, hka, hm, hrest]
    · have h' : t.filter (fun y => decide (key y = key x)) = [old] := by
        simpa [List.filter_cons, hka] using h
      simpa [List.filter_cons, hka] using filter_map_upd_self hmk x old t h'

/-- Filtering on a key different from the upserted one is unchanged. -/
theorem keyedUpsert_filter_ne
    (hmk : ∀ a b, key a = key b → key (merge a b) = key b) (tbl : List α) (x : α)
    (k : κ) (hne : k ≠ key x) :
    (keyedUpsert key merge tbl x).filter (fun y => decide (key y = k)) =
      tbl.filter (fun y => decide (key y = k)) := by
  unfold keyedUpsert
  by_cases h : tbl.any (fun y => decide (key y = key x)) = true
  · simp only [h, if_true]
    exact filter_map_upd_ne key merge hmk x k hne tbl
  · have hne' : ¬ key x = k := fun hk => hne hk.symm
    simp [h, List.filter_append, hne']

/-- Filtering on the upserted key after an upsert into a table that had no
row with that key yields exactly the incoming row. -/
theorem keyedUpsert_filter_self_new (tbl : List α) (x : α)
    (habs : tbl.filter (fun y => decide (key y = key x)) = []) :
    (keyedUpsert key merge tbl x).filter (fun y => decide (key y = key x)) = [x] := by
  unfold keyedUpsert
  have hany : tbl.any (fun y => decide (key y = key x)) = false := by
    by_contra hc
    have hany' := List.any_eq_true.mp (Bool.not_eq_false _ |>.mp hc)
    rcases hany' with ⟨a, ha, hk⟩
    have : a ∈ tbl.filter (fun y => decide (key y = key x)) := List.mem_filter.mpr ⟨ha, hk⟩
    simp [habs] at this
  simp [hany, List.filter_append, habs]

/-- Filtering on the upserted key after an upsert into a table with
pairwise distinct keys that had exactly the row `old` with that key
yields exactly `merge old x`. -/
theorem keyedUpsert_filter_self_hit
    (hmk : ∀ a b, key a = key b → key (merge a b) = key b) (tbl : List α) (x old : α)
    (hhit : tbl.filter (fun y => decide (key y = key x)) = [old]) :
    (keyedUpsert key merge tbl x).filter (fun y => decide (key y = key x)) =
      [merge old x] := by
  have hmem : old ∈ tbl ∧ key old = key x := by
    have : old ∈ tbl.filter (fun y => decide (key y = key x)) := by simp [hhit]
    have h := List.mem_filter.mp this
    exact ⟨h.1, by simpa using h.2⟩
  have hany : tbl.any (fun y => decide (key y = key x)) = true :=
    List.any_eq_true.mpr ⟨old, hmem.1, by simp [hmem.2]⟩
  unfold keyedUpsert
  simp only [hany, if_true]
  exact filter_map_upd_self key merge hmk x old tbl hhit

end KeyedUpsert

section KeyedUpsertFold

variable {α κ : Type} [DecidableEq κ] (key : α → κ) (merge : α → α → α)

/-- In a table whose keys are pairwise distinct, a filter on any single
key is empty or a singleton. -/
theorem nodup_filter_key (tbl : List α) (hnd : (tbl.map key).Nodup) (k : κ) :
    tbl.filter (fun y => decide (key y = k)) = [] ∨
      ∃ a, tbl.filter (fun y => decide (key y = k)) = [a] ∧ key a = k := by
  rcases hl : tbl.filter (fun y => decide (key y = k)) with _ | ⟨a, rest⟩
  · exact Or.inl rfl
  · right
    have hsub : (tbl.filter (fun y => decide (key y = k))).Sublist tbl :=
      List.filter_sublist tbl
    have hnd' : ((tbl.filter (fun y => decide (key y = k))).map key).Nodup :=
      hnd.sublist (hsub.map key)
    rw [hl] at hnd'
    have ha : key a = k := by
      have : a ∈ tbl.filter (fun y => decide (key y = k)) := by simp [hl]
      simpa using (List.mem_filter.mp this).2
    rcases hr : rest with _ | ⟨b, rest2⟩
    · exact ⟨a, rfl, ha⟩
    · exfalso
      subst hr
      have hb : key b = k := by
        have : b ∈ tbl.filter (fun y => decide (key y = k)) := by simp [hl]
        simpa using (List.mem_filter.mp this).2
      have : key a ∉ (b :: rest2).map key := (List.nodup_cons.mp hnd').1
      exact this (by simp [ha, hb])

/-- Folding upserts whose keys all differ from `k` leaves the filter on
`k` unchanged. -/
theorem foldl_keyedUpsert_filter_untouched
    (hmk : ∀ a b, key a = key b → key (merge a b) = key b) (k : κ) :
    ∀ (xs : List α) (tbl : List α), (∀ y ∈ xs, key y ≠ k) →
      (xs.foldl (keyedUpsert key merge) tbl).filter (fun y => decide (key y = k)) =
        tbl.filter (fun y => decide (key y = k))
  | [], tbl, _ => rfl
  | x :: rest, tbl, h => by
    have hx : key x ≠ k := h x (by simp)
    have hrest : ∀ y ∈ rest, key y ≠ k := fun y hy => h y (by simp [hy])
    rw [List.foldl_cons,
      foldl_keyedUpsert_filter_untouched hmk k rest (keyedUpsert key merge tbl x) hrest,
      keyedUpsert_filter_ne key merge hmk tbl x k (fun hk => hx hk.symm)]

/-- Folding upserts keeps keys pairwise distinct. -/
theorem foldl_keyedUpsert_nodup
    (hmk : ∀ a b, key a = key b → key (merge a b) = key b) :
    ∀ (xs : List α) (tbl : List α), (tbl.map key).Nodup →
      ((xs.foldl (keyedUpsert key merge) tbl).map key).Nodup
  | [], _, hnd => hnd
  | x :: rest, tbl, hnd => by
    rw [List.foldl_cons]
    exact foldl_keyedUpsert_nodup hmk rest (keyedUpsert key merge tbl x)
      (keyedUpsert_nodup key merge hmk tbl x hnd)

/-- After folding a batch of upserts whose keys are pairwise distinct over
a table with pairwise distinct keys, the filter on the key of a batch
member is exactly the incoming row (fresh key) or exactly the merge of
the unique old row with the incoming one (existing key). -/
theorem foldl_keyedUpsert_filter_mem
    (hmk : ∀ a b, key a = key b → key (merge a b) = key b) :
    ∀ (xs : List α) (x : α), x ∈ xs → (xs.map key).Nodup →
      ∀ tbl : List α, (tbl.map key).Nodup →
      (tbl.filter (fun y => decide (key y = key x)) = [] →
        (xs.foldl (keyedUpsert key merge) tbl).filter
            (fun y => decide (key y = key x)) = [x]) ∧
      (∀ old, tbl.filter (fun y => decide (key y = key x)) = [old] →
        (xs.foldl (keyedUpsert key merge) tbl).filter
            (fun y => decide (key y = key x)) = [merge old x])
  | [], x, hx, _, _, _ => by simp at hx
  | x0 :: rest, x, hx, hndxs, tbl, hndtbl => by
    rw [List.map_cons] at hndxs
    obtain ⟨hx0, hndrest⟩ := List.nodup_cons.mp hndxs
    rcases List.mem_cons.mp hx with rfl | hxr
    · have hrest : ∀ y ∈ rest, key y ≠ key x := by
        intro y hy hk
        exact hx0 (List.mem_map.mpr ⟨y, hy, hk⟩)
      constructor
      · intro habs
        rw [List.foldl_cons,
          foldl_keyedUpsert_filter_untouched key merge hmk (key x) rest _ hrest]
        exact keyedUpsert_filter_self_new key merge tbl x habs
      · intro old hold
        rw [List.foldl_cons,
          foldl_keyedUpsert_filter_untouched key merge hmk (key x) rest _ hrest]
        exact keyedUpsert_filter_self_hit key merge hmk tbl x old hold
    · have hne : key x ≠ key x0 := by
        intro hk
        exact hx0 (hk ▸ List.mem_map.mpr ⟨x, hxr, rfl⟩)
      have hndtbl' : ((keyedUpsert key merge tbl x0).map key).Nodup :=
        keyedUpsert_nodup key merge hmk tbl x0 hndtbl
      have hfe : (keyedUpsert key merge tbl x0).filter (fun y => decide (key y = key x)) =
          tbl.filter (fun y => decide (key y = key x)) :=
        keyedUpsert_filter_ne key merge hmk tbl x0 (key x) hne
      have ih := foldl_keyedUpsert_filter_mem hmk rest x hxr hndrest
        (keyedUpsert key merge tbl x0) hndtbl'
      constructor
      · intro habs
        rw [List.foldl_cons]
        exact ih.1 (by rw [hfe, habs])
      · intro old hold
        rw [List.foldl_cons]
        exact ih.2 old (by rw [hfe, hold])

end KeyedUpsertFold

/-! ## Project rows and upsertProject (src/db.ts), scanner (src/scanner.ts) -/

/-- A row of the `projects` table (`interface Project` in `src/db.ts`).
`id` is assigned by the store and never written by an
`ON CONFLICT(path) DO UPDATE`; `is_git` is a boolean at this interface
even though it is stored as an integer flag. -/
structure Project where
  id : Option Nat
  name : String
  path : String
  status : String
  is_git : Bool
  tech_stack : Option String
  last_scanned : String
  description : Option String
  remote_url : Option String
  sync_status : Option SyncStatus
  branch_name : Option String
  last_activity_date : Option String
deriving DecidableEq, Repr

/-- `upsertProject` from `src/db.ts`: insert keyed by `path`; on conflict
every column except `id` is overwritten by the incoming row. -/
def upsertProject (db : List Project) (p : Project) : List Project :=
  keyedUpsert (fun q => q.path) (fun old q => { q with id := old.id }) db p

/-- One entry returned by `fs.readdir(rootPath, {withFileTypes: true})`
in `scanDirectory`, together with the outcomes of the per-child
inspections: `isGitRepoResult` and `detectTechStackResult` are the
results of `isGitRepo`/`detectTechStack` from `src/lib/fs.ts` (`.error`
when the call throws), `readme` is the description extracted by
`getProjectDescription` (that function catches all its own errors and
returns null, so it cannot throw), and `git` is the subprocess
environment seen by `getGitInfo` for this child. -/
structure DirEntry where
  name : String
  isDir : Bool
  isGitRepoResult : Except String Bool
  detectTechStackResult : Except String (Option String)
  readme : Option String
  git : GitEnv
deriving Repr

/-- JavaScript `s.startsWith(pre)`, written on the character lists so
that it evaluates by reduction (the runtime `String.startsWith` has the
same semantics but is not kernel-reducible). -/
def strStartsWith (s pre : String) : Bool :=
  pre.data.isPrefixOf s.data

/-- The guard of the scan loop in `src/scanner.ts`:
`entry.isDirectory() && !entry.name.startsWith('.') && entry.name !== 'node_modules'`. -/
def childFilter (e : DirEntry) : Bool :=
  e.isDir && !(strStartsWith e.name ".") && decide (e.name ≠ "node_modules")

/-- `path.join(rootPath, entry.name)`. -/
def mkPath (root name : String) : String := root ++ "/" ++ name

/-- The `Project` literal assembled in `scanDirectory` for one qualifying
child (with `new Date().toISOString()` passed in as `now`).  The literal
carries no `id` and no `last_activity_date`. -/
def mkProject (root now : String) (e : DirEntry) (isGit : Bool)
    (tech : Option String) : Project :=
  { id := none
    name := e.name
    path := mkPath root e.name
    status := "active"
    is_git := isGit
    tech_stack := tech
    last_scanned := now
    description := e.readme
    remote_url := if isGit then (getGitInfo e.git).remoteUrl else none
    branch_name := if isGit then (getGitInfo e.git).branch else none
    sync_status := if isGit then some (getGitInfo e.git).syncStatus else none
    last_activity_date := none }

/-- The `for (const entry of entries)` loop of `scanDirectory`.  A throw
while inspecting a child is caught only by the `try` wrapping the whole
loop, which logs and rethrows: the loop stops, the projects collected so
far are lost to the caller, and the upserts already performed remain in
the store (carried in the `.error` payload along with the message). -/
def scanLoop (root now : String) :
    List DirEntry → List Project → List Project →
      Except (String × List Project) (List Project × List Project)
  | [], db, acc => .ok (acc, db)
  | e :: rest, db, acc =>
    if childFilter e then
      match e.isGitRepoResult with
      | .error msg => .error (msg, db)
      | .ok isGit =>
        match e.detectTechStackResult with
        | .error msg => .error (msg, db)
        | .ok tech =>
          if isGit || tech.isSome then
            scanLoop root now rest
              (upsertProject db (mkProject root now e isGit tech))
              (acc ++ [mkProject root now e isGit tech])
          else
            scanLoop root now rest db acc
    else
      scanLoop root now rest db acc

/-- `scanDirectory` from `src/scanner.ts`, after the root path has been
validated: returns the list of upserted projects and the store state, or
the propagated error with the store state at the time of the throw. -/
def scanDirectory (root now : String) (entries : List DirEntry)
    (db : List Project) :
    Except (String × List Project) (List Project × List Project) :=
  scanLoop root now entries db []

/-- The inspection of a child succeeded (neither detector threw). -/
def inspectOk (e : DirEntry) : Prop :=
  (∃ g, e.isGitRepoResult = .ok g) ∧ (∃ t, e.detectTechStackResult = .ok t)

/-- The projects a fully successful scan discovers, in order. -/
def projectsOf (root now : String) (entries : List DirEntry) : List Project :=
  entries.filterMap (fun e =>
    if childFilter e then
      match e.isGitRepoResult, e.detectTechStackResult with
      | .ok g, .ok t =>
          if g || t.isSome then some (mkProject root now e g t) else none
      | _, _ => none
    else none)

/-- When no child inspection throws, the scan loop returns all discovered
projects and the store after upserting each of them in order. -/
theorem scanLoop_ok (root now : String) :
    ∀ (entries : List DirEntry) (db acc : List Project),
      (∀ e ∈ entries, inspectOk e) →
      scanLoop root now entries db acc =
        .ok (acc ++ projectsOf root now entries,
          (projectsOf root now entries).foldl upsertProject db)
  | [], db, acc, _ => by simp [scanLoop, projectsOf]
  | e :: rest, db, acc, hok => by
    have he : inspectOk e := hok e (by simp)
    have hrest : ∀ x ∈ rest, inspectOk x := fun x hx => hok x (by simp [hx])
    obtain ⟨⟨g, hg⟩, ⟨t, ht⟩⟩ := he
    have ih1 := fun db acc => scanLoop_ok root now rest db acc hrest
    by_cases hf : childFilter e = true
    · by_cases hq : (g = true ∨ t.isSome = true)
      · simp [scanLoop, hf, hg, ht, hq, ih1, projectsOf, List.filterMap_cons,
          List.append_assoc]
      · simp [scanLoop, hf, hg, ht, hq, ih1, projectsOf, List.filterMap_cons]
    · simp [scanLoop, hf, ih1, projectsOf, List.filterMap_cons]

/-- Rescanning with a later timestamp discovers the same projects with
only `last_scanned` changed. -/
theorem projectsOf_relabel (root now1 now2 : String) :
    ∀ entries : List DirEntry,
      projectsOf root now2 entries =
        (projectsOf root now1 entries).map
          (fun p => { p with last_scanned := now2 })
  | [] => rfl
  | e :: rest => by
    have ih := projectsOf_relabel root now1 now2 rest
    by_cases hf : childFilter e = true
    · rcases hg : e.isGitRepoResult with msg | g
      · simpa [projectsOf, List.filterMap_cons, hf, hg] using ih
      · rcases ht : e.detectTechStackResult with msg | t
        · simpa [projectsOf, List.filterMap_cons, hf, hg, ht] using ih
        · by_cases hq : (g = true ∨ t.isSome = true)
          · simpa [projectsOf, List.filterMap_cons, hf, hg, ht, hq, mkProject]
              using ih
          · simpa [projectsOf, List.filterMap_cons, hf, hg, ht, hq] using ih
    · simpa [projectsOf, List.filterMap_cons, hf] using ih

/-- Keys (paths) stay pairwise distinct when folding scanner upserts. -/
theorem foldl_upsertProject_nodup (xs : List Project) (tbl : List Project)
    (hnd : (tbl.map (fun q => q.path)).Nodup) :
    ((xs.foldl upsertProject tbl).map (fun q => q.path)).Nodup :=
  foldl_keyedUpsert_nodup (fun q => q.path) (fun old q => { q with id := old.id })
    (fun _ _ _ => rfl) xs tbl hnd

/-- After folding scanner upserts of projects with pairwise distinct
paths, the store holds exactly one row for each upserted path: the
incoming row (fresh path) or the incoming row with the old id (existing
path). -/
theorem foldl_upsertProject_filter_mem (xs : List Project) (x : Project)
    (hx : x ∈ xs) (hndxs : (xs.map (fun q => q.path)).Nodup)
    (tbl : List Project) (hndtbl : (tbl.map (fun q => q.path)).Nodup) :
    (tbl.filter (fun y => decide (y.path = x.path)) = [] →
      (xs.foldl upsertProject tbl).filter (fun y => decide (y.path = x.path)) = [x]) ∧
    (∀ old, tbl.filter (fun y => decide (y.path = x.path)) = [old] →
      (xs.foldl upsertProject tbl).filter (fun y => decide (y.path = x.path)) =
        [{ x with id := old.id }]) :=
  foldl_keyedUpsert_filter_mem (fun q => q.path) (fun old q => { q with id := old.id })
    (fun _ _ _ => rfl) xs x hx hndxs tbl hndtbl

/-- C3: scanning a root twice with no filesystem change (same entries,
same inspection results) succeeds both times, discovers the same
projects up to `last_scanned`, and for every discovered path the store
holds exactly one record after each scan — the record after the second
scan being the record after the first with only `last_scanned`
replaced. -/
theorem scanDirectory_idempotent (root now1 now2 : String)
    (entries : List DirEntry) (db : List Project)
    (hok : ∀ e ∈ entries, inspectOk e)
    (hdb : (db.map (fun p => p.path)).Nodup)
    (hpaths : ((projectsOf root now1 entries).map (fun p => p.path)).Nodup) :
    ∃ ps1 db1 ps2 db2,
      scanDirectory root now1 entries db = .ok (ps1, db1) ∧
      scanDirectory root now2 entries db1 = .ok (ps2, db2) ∧
      ps2 = ps1.map (fun p => { p with last_scanned := now2 }) ∧
      ∀ p1 ∈ ps1, ∃ r1,
        db1.filter (fun q => decide (q.path = p1.path)) = [r1] ∧
        db2.filter (fun q => decide (q.path = p1.path)) =
          [{ r1 with last_scanned := now2 }] := by
  have h1 : scanDirectory root now1 entries db =
      .ok (projectsOf root now1 entries,
        (projectsOf root now1 entries).foldl upsertProject db) := by
    rw [scanDirectory, scanLoop_ok root now1 entries db [] hok]
    simp
  have hrel := projectsOf_relabel root now1 now2 entries
  have h2 : scanDirectory root now2 entries
        ((projectsOf root now1 entries).foldl upsertProject db) =
      .ok ((projectsOf root now1 entries).map (fun p => { p with last_scanned := now2 }),
        ((projectsOf root now1 entries).map (fun p => { p with last_scanned := now2 })).foldl
          upsertProject ((projectsOf root now1 entries).foldl upsertProject db)) := by
    rw [scanDirectory, scanLoop_ok root now2 entries _ [] hok, hrel]
    simp
  refine ⟨projectsOf root now1 entries, _, _, _, h1, h2, rfl, ?_⟩
  intro p1 hp1
  have hp2 : ({ p1 with last_scanned := now2 } : Project) ∈
      (projectsOf root now1 entries).map (fun p => { p with last_scanned := now2 }) :=
    List.mem_map_of_mem _ hp1
  have hndD1 : (((projectsOf root now1 entries).foldl upsertProject db).map
      (fun q => q.path)).Nodup :=
    foldl_upsertProject_nodup (projectsOf root now1 entries) db hdb
  have hpaths2 : (((projectsOf root now1 entries).map
      (fun p => { p with last_scanned := now2 })).map (fun q => q.path)).Nodup := by
    rw [List.map_map]
    exact hpaths
  have hmemP1 := foldl_upsertProject_filter_mem (projectsOf root now1 entries) p1 hp1
    hpaths db hdb
  have hmemP2 := foldl_upsertProject_filter_mem
    ((projectsOf root now1 entries).map (fun p => { p with last_scanned := now2 }))
    ({ p1 with last_scanned := now2 }) hp2 hpaths2
    ((projectsOf root now1 entries).foldl upsertProject db) hndD1
  rcases nodup_filter_key (fun q => q.path) db hdb p1.path with hdb0 | ⟨old, hold, -⟩
  · have hD1 := hmemP1.1 hdb0
    exact ⟨p1, hD1, hmemP2.2 p1 hD1⟩
  · have hD1 := hmemP1.2 old hold
    exact ⟨{ p1 with id := old.id }, hD1, hmemP2.2 _ hD1⟩

/-- A non-git child directory with a detected tech stack, as seen by the
scan loop. -/
def entryNode : DirEntry :=
  { name := "app", isDir := true, isGitRepoResult := .ok false,
    detectTechStackResult := .ok (some "node"), readme := none,
    git := ⟨none, none, none⟩ }

/-- A git child directory in sync with its remote. -/
def entryGit : DirEntry :=
  { name := "lib", isDir := true, isGitRepoResult := .ok true,
    detectTechStackResult := .ok none, readme := some "A library",
    git := ⟨some "main", some "git@host:lib", some ("h1", "h1", "h1")⟩ }

/-- A child directory whose repository check throws. -/
def entryBroken : DirEntry :=
  { name := "broken", isDir := true, isGitRepoResult := .error "EACCES",
    detectTechStackResult := .ok none, readme := none,
    git := ⟨none, none, none⟩ }

/-- Witness for C3 on a concrete two-entry root scanned at times t1, t2. -/
theorem scanDirectory_idempotent_witness :
    ∃ ps1 db1 ps2 db2,
      scanDirectory "/home/u" "t1" [entryNode, entryGit] [] = .ok (ps1, db1) ∧
      scanDirectory "/home/u" "t2" [entryNode, entryGit] db1 = .ok (ps2, db2) ∧
      ps2 = ps1.map (fun p => { p with last_scanned := "t2" }) ∧
      ∀ p1 ∈ ps1, ∃ r1,
        db1.filter (fun q => decide (q.path = p1.path)) = [r1] ∧
        db2.filter (fun q => decide (q.path = p1.path)) =
          [{ r1 with last_scanned := "t2" }] :=
  scanDirectory_idempotent "/home/u" "t1" "t2" [entryNode, entryGit] []
    (by
      intro e he
      rcases List.mem_cons.mp he with rfl | he2
      · exact ⟨⟨false, rfl⟩, ⟨some "node", rfl⟩⟩
      · rcases List.mem_cons.mp he2 with rfl | he3
        · exact ⟨⟨true, rfl⟩, ⟨none, rfl⟩⟩
        · simp at he3)
    (by simp)
    (by decide)

/-- Processing a fully successful block of leading entries reduces the
scan loop to the loop on the remaining entries, with the discovered
projects upserted and accumulated. -/
theorem scanLoop_pre (root now : String) :
    ∀ (pre rest : List DirEntry) (db acc : List Project),
      (∀ e ∈ pre, inspectOk e) →
      scanLoop root now (pre ++ rest) db acc =
        scanLoop root now rest ((projectsOf root now pre).foldl upsertProject db)
          (acc ++ projectsOf root now pre)
  | [], rest, db, acc, _ => by simp [projectsOf]
  | e :: pre, rest, db, acc, hok => by
    have he : inspectOk e := hok e (by simp)
    have hpre : ∀ x ∈ pre, inspectOk x := fun x hx => hok x (by simp [hx])
    obtain ⟨⟨g, hg⟩, ⟨t, ht⟩⟩ := he
    have ih := fun db acc => scanLoop_pre root now pre rest db acc hpre
    by_cases hf : childFilter e = true
    · by_cases hq : (g = true ∨ t.isSome = true)
      · simp [scanLoop, hf, hg, ht, hq, ih, projectsOf, List.filterMap_cons,
          List.append_assoc]
      · simp [scanLoop, hf, hg, ht, hq, ih, projectsOf, List.filterMap_cons]
    · simp [scanLoop, hf, ih, projectsOf, List.filterMap_cons]

/-- Counterexample to C5 as stated: one failing child aborts the scan of
its siblings.  With a qualifying first child, a second child whose
repository check throws, and a qualifying third child, `scanDirectory`
propagates the error to the caller (it does not return normally), the
store retains only the first child's record, and the third child was
never inspected or upserted. -/
theorem scanDirectory_error_aborts_counterexample :
    scanDirectory "/home/u" "t1" [entryNode, entryBroken, entryGit] [] =
      .error ("EACCES", [mkProject "/home/u" "t1" entryNode false (some "node")]) := by
  rfl

/-- C5 amended: an error raised while inspecting one child is logged and
rethrown by the scan-level catch, so the scan aborts: the children
before the failing one remain upserted, the children after it are never
inspected, and the caller receives the error instead of a normal
return. -/
theorem scanDirectory_error_aborts (root now msg : String)
    (pre post : List DirEntry) (bad : DirEntry) (db : List Project)
    (hok : ∀ e ∈ pre, inspectOk e)
    (hf : childFilter bad = true)
    (hbad : bad.isGitRepoResult = .error msg) :
    scanDirectory root now (pre ++ bad :: post) db =
      .error (msg, (projectsOf root now pre).foldl upsertProject db) := by
  rw [scanDirectory, scanLoop_pre root now pre (bad :: post) db [] hok]
  simp [scanLoop, hf, hbad]

/-- Witness for the amended C5 at the concrete three-child root. -/
theorem scanDirectory_error_aborts_witness :
    scanDirectory "/home/u" "t1" [entryNode, entryBroken, entryGit] [] =
      .error ("EACCES",
        (projectsOf "/home/u" "t1" [entryNode]).foldl upsertProject []) :=
  scanDirectory_error_aborts "/home/u" "t1" "EACCES" [entryNode] [entryGit]
    entryBroken []
    (by
      intro e he
      rcases List.mem_cons.mp he with rfl | he2
      · exact ⟨⟨false, rfl⟩, ⟨some "node", rfl⟩⟩
      · simp at he2)
    rfl
    rfl

/-! ## Path validation (src/lib/security.ts) -/

/-- Modelled from the spec: the implementation of `validatePath` in
`src/lib/security.ts` is not among the provided sources (only its unit
tests and its call site in `scanDirectory` are).  Following the spec,
canonicalization (symlink and `..` resolution) is abstracted as a
function `canon` from raw paths to canonical component lists, and a
candidate lies in a root iff the root's canonical components are a
list prefix of the candidate's (equality or descendance).  The check
runs entirely on canonical forms; on failure the rejected path is named
in the access-denied condition. -/
def validatePath (canon : String → List String) (p : String)
    (allowedRoots : List String) : Except String (List String) :=
  if allowedRoots.any (fun r => (canon r).isPrefixOf (canon p)) then
    .ok (canon p)
  else
    .error ("Access denied: " ++ p)

/-- C2: `validatePath` succeeds, returning the canonical form of the
candidate, iff that canonical form equals or descends from the canonical
form of some allowed root; otherwise it fails with the access-denied
condition.  Success depends only on the canonical form, so `..`
sequences and symlink spellings that canonicalize outside every root
cannot succeed. -/
theorem validatePath_spec (canon : String → List String) (p : String)
    (roots : List String) :
    ((∃ r ∈ roots, (canon r).isPrefixOf (canon p) = true) →
      validatePath canon p roots = .ok (canon p)) ∧
    (∀ v, validatePath canon p roots = .ok v →
      v = canon p ∧ ∃ r ∈ roots, (canon r).isPrefixOf (canon p) = true) ∧
    ((∀ r ∈ roots, (canon r).isPrefixOf (canon p) = false) →
      validatePath canon p roots = .error ("Access denied: " ++ p)) := by
  refine ⟨?_, ?_, ?_⟩
  · intro h
    rcases h with ⟨r, hr, hpre⟩
    have hany : roots.any (fun r => (canon r).isPrefixOf (canon p)) = true :=
      List.any_eq_true.mpr ⟨r, hr, hpre⟩
    simp [validatePath, hany]
  · intro v hv
    by_cases hany : roots.any (fun r => (canon r).isPrefixOf (canon p)) = true
    · refine ⟨?_, ?_⟩
      · simp [validatePath, hany] at hv
        exact hv.symm
      · rcases List.any_eq_true.mp hany with ⟨r, hr, hpre⟩
        exact ⟨r, hr, hpre⟩
    · simp [validatePath, hany] at hv
  · intro h
    have hany : roots.any (fun r => (canon r).isPrefixOf (canon p)) = false := by
      rw [Bool.eq_false_iff]
      intro hc
      rcases List.any_eq_true.mp hc with ⟨r, hr, hpre⟩
      rw [h r hr] at hpre
      exact Bool.false_ne_true hpre
    simp [validatePath, hany]

/-- A concrete canonicalization fixture: one allowed root, one candidate
inside it, and one `..` traversal spelling that resolves outside it. -/
def canonFix : String → List String := fun s =>
  if s = "/home/u" then ["home", "u"]
  else if s = "/home/u/proj" then ["home", "u", "proj"]
  else if s = "/home/u/proj/../../../etc/passwd" then ["etc", "passwd"]
  else []

/-- Witness for C2: the in-root candidate is accepted with its canonical
form; the traversal spelling whose canonical form lies outside the root
is rejected. -/
theorem validatePath_spec_witness :
    validatePath canonFix "/home/u/proj" ["/home/u"] =
      .ok ["home", "u", "proj"] ∧
    validatePath canonFix "/home/u/proj/../../../etc/passwd" ["/home/u"] =
      .error ("Access denied: " ++ "/home/u/proj/../../../etc/passwd") := by
  constructor
  · exact (validatePath_spec canonFix "/home/u/proj" ["/home/u"]).1
      ⟨"/home/u", by simp, by decide⟩
  · exact (validatePath_spec canonFix "/home/u/proj/../../../etc/passwd"
      ["/home/u"]).2.2 (by
        intro r hr
        rcases List.mem_singleton.mp hr with rfl
        decide)

/-! ## Paginated project listing (the list_projects tool) -/

/-- The pagination block returned by `list_projects`. -/
structure Pagination where
  limit : Nat
  offset : Nat
  total : Nat
  has_more : Bool
deriving DecidableEq, Repr

/-- The payload returned by `list_projects`. -/
structure ListProjectsResult where
  data : List Project
  pagination : Pagination
deriving DecidableEq, Repr

/-- Shallow embedding of the `list_projects` tool handler: the requested
limit is clamped at 50 (`Math.min(limit, 50)`), the rows are the
`ORDER BY name LIMIT ? OFFSET ?` slice, `total` is `COUNT(*)`, and
`has_more` is `offset + safeLimit < total`. -/
def list_projects (db : List Project) (limit offset : Nat) : ListProjectsResult :=
  let safeLimit := min limit 50
  let sorted := db.mergeSort (fun a b => decide (a.name ≤ b.name))
  { data := (sorted.drop offset).take safeLimit
    pagination :=
      { limit := safeLimit
        offset := offset
        total := db.length
        has_more := decide (offset + safeLimit < db.length) } }

/-- The zod argument defaults of the tool: `limit` 20, `offset` 0. -/
def list_projects_tool (db : List Project) (lim off : Option Nat) :
    ListProjectsResult :=
  list_projects db (lim.getD 20) (off.getD 0)

/-- C6: the effective page size is the requested limit clamped at 50 and
at most 50 rows are returned (so limit 1000 reports 50); the defaults
are limit 20 and offset 0; and `has_more` holds iff
`offset + effective limit < total`, with `total` the stored project
count. -/
theorem list_projects_pagination (db : List Project) (limit offset : Nat) :
    (list_projects db limit offset).pagination.limit = min limit 50 ∧
    (list_projects db limit offset).data.length ≤ min limit 50 ∧
    (list_projects db limit offset).data.length ≤ 50 ∧
    (list_projects db 1000 offset).pagination.limit = 50 ∧
    ((list_projects db limit offset).pagination.has_more = true ↔
      offset + min limit 50 < db.length) ∧
    (list_projects db limit offset).pagination.total = db.length ∧
    (list_projects db limit offset).pagination.offset = offset ∧
    list_projects_tool db none none = list_projects db 20 0 := by
  refine ⟨rfl, ?_, ?_, ?_, ?_, rfl, rfl, rfl⟩
  · simp only [list_projects, List.length_take, List.length_drop]
    omega
  · simp only [list_projects, List.length_take, List.length_drop]
    omega
  · norm_num [list_projects]
  · simp [list_projects]

/-! ## Activity aggregation (src/activity.ts) -/

/-- JavaScript `line.trim()`, written on the character lists so it
evaluates by reduction (same semantics as the runtime trim for the
whitespace classes used here). -/
def strTrim (s : String) : String :=
  ⟨((s.data.dropWhile Char.isWhitespace).reverse.dropWhile Char.isWhitespace).reverse⟩

/-- One step of the histogram loop
`statsMap.set(date, (statsMap.get(date) || 0) + 1)` over a JavaScript
`Map`, which keeps insertion order. -/
def bumpDate : List (String × Nat) → String → List (String × Nat)
  | [], d => [(d, 1)]
  | (k, c) :: rest, d =>
      if k = d then (k, c + 1) :: rest else (k, c) :: bumpDate rest d

/-- The insertion-ordered commit-date histogram of `getGitActivity`. -/
def buildStats (dates : List String) : List (String × Nat) :=
  dates.foldl bumpDate []

/-- The non-blank lines of the windowed `git log` output:
`stdout.split('\n').filter(line => line.trim() !== '')`. -/
def windowDates (logLines : List String) : List String :=
  logLines.filter (fun l => decide (strTrim l ≠ ""))

/-- `getGitActivity` for a repository that has a `.git` marker, given the
lines printed by `git log --since="30 days ago" --pretty=format:"%ad"
--date=short` (one `YYYY-MM-DD` line per commit, in log order) and the
result of the fallback `git log -1` query (`none` when it fails or the
repository has no commits).  Blank lines are dropped; with at least one
date the histogram is built and sorted descending (the in-place
`sort((a, b) => b.date.localeCompare(a.date))`), and the first entry of
the sorted array is the last activity; with no date in the window the
fallback answer is returned and no buckets are produced. -/
def getGitActivity (logLines : List String) (fallbackLast : Option String) :
    Option String × List (String × Nat) :=
  let lines := windowDates logLines
  if lines.isEmpty then
    (fallbackLast, [])
  else
    let stats := (buildStats lines).mergeSort (fun a b => decide (b.1 ≤ a.1))
    (stats.head?.map (fun s => s.1), stats)

theorem lookup_bumpDate_self (d : String) :
    ∀ acc : List (String × Nat),
      List.lookup d (bumpDate acc d) = some ((List.lookup d acc).getD 0 + 1)
  | [] => by simp [bumpDate, List.lookup]
  | (k, c) :: rest => by
    by_cases hk : k = d
    · subst hk
      simp [bumpDate, List.lookup]
    · have hk' : (d == k) = false := by simp [Ne.symm hk]
      simp [bumpDate, hk, List.lookup, hk', lookup_bumpDate_self d rest]

theorem lookup_bumpDate_other (d e : String) (hne : d ≠ e) :
    ∀ acc : List (String × Nat),
      List.lookup d (bumpDate acc e) = List.lookup d acc
  | [] => by
    have h' : (d == e) = false := by simp [hne]
    simp [bumpDate, List.lookup, h']
  | (k, c) :: rest => by
    by_cases hk : k = e
    · subst hk
      have hk' : (d == k) = false := by simp [hne]
      simp [bumpDate, List.lookup, hk']
    · by_cases hdk : d = k
      · subst hdk
        simp [bumpDate, hk, List.lookup]
      · have hk' : (d == k) = false := by simp [hdk]
        simp [bumpDate, hk, List.lookup, hk', lookup_bumpDate_other d e hne rest]

theorem keys_bumpDate (d : String) :
    ∀ acc : List (String × Nat),
      (bumpDate acc d).map Prod.fst =
        if d ∈ acc.map Prod.fst then acc.map Prod.fst
        else acc.map Prod.fst ++ [d]
  | [] => by simp [bumpDate]
  | (k, c) :: rest => by
    by_cases hk : k = d
    · subst hk
      simp [bumpDate]
    · have := keys_bumpDate d rest
      by_cases hd : d ∈ rest.map Prod.fst
      · simp [bumpDate, hk, hd, this, Ne.symm hk]
      · simp [bumpDate, hk, hd, this, Ne.symm hk]

theorem keys_bumpDate_nodup (d : String) (acc : List (String × Nat))
    (hnd : (acc.map Prod.fst).Nodup) : ((bumpDate acc d).map Prod.fst).Nodup := by
  rw [keys_bumpDate]
  by_cases hd : d ∈ acc.map Prod.fst
  · simp [hd, hnd]
  · simp [hd, List.nodup_append, hnd]

theorem foldl_bumpDate_lookup (d : String) :
    ∀ (ds : List String) (acc : List (String × Nat)),
      List.lookup d (ds.foldl bumpDate acc) =
        match List.lookup d acc with
        | some c => some (c + ds.count d)
        | none => if d ∈ ds then some (ds.count d) else none
  | [], acc => by
    cases h : List.lookup d acc <;> simp [h]
  | e :: ds, acc => by
    rw [List.foldl_cons, foldl_bumpDate_lookup d ds (bumpDate acc e)]
    by_cases he : e = d
    · subst he
      rw [lookup_bumpDate_self]
      cases h : List.lookup e acc <;>
        simp [h, List.count_cons, Nat.add_comm, Nat.add_assoc, Nat.add_left_comm]
    · rw [lookup_bumpDate_other d e (Ne.symm he)]
      cases h : List.lookup d acc <;>
        simp [h, List.count_cons, he, Ne.symm he]

/-- The histogram maps each day of the window to its commit count and
holds no other day. -/
theorem buildStats_lookup (ds : List String) (d : String) :
    List.lookup d (buildStats ds) =
      if d ∈ ds then some (ds.count d) else none := by
  rw [buildStats, foldl_bumpDate_lookup]
  simp [List.lookup]

theorem buildStats_keys_nodup :
    ∀ (ds : List String) (acc : List (String × Nat)),
      (acc.map Prod.fst).Nodup → ((ds.foldl bumpDate acc).map Prod.fst).Nodup
  | [], _, hnd => hnd
  | d :: ds, acc, hnd =>
    buildStats_keys_nodup ds (bumpDate acc d) (keys_bumpDate_nodup d acc hnd)

theorem lookup_isSome_iff_mem_keys {β : Type} (d : String) :
    ∀ l : List (String × β),
      (List.lookup d l).isSome = true ↔ d ∈ l.map Prod.fst
  | [] => by simp
  | (k, v) :: t => by
    by_cases hk : d = k
    · subst hk
      simp [List.lookup]
    · have hk' : (d == k) = false := by simp [hk]
      simp [List.lookup, hk', hk, lookup_isSome_iff_mem_keys d t]

theorem mem_pair_iff_lookup {β : Type} :
    ∀ (l : List (String × β)), (l.map Prod.fst).Nodup →
      ∀ (d : String) (c : β), ((d, c) ∈ l ↔ List.lookup d l = some c)
  | [], _, d, c => by simp
  | (k, v) :: t, hnd, d, c => by
    rw [List.map_cons] at hnd
    obtain ⟨hk, hndt⟩ := List.nodup_cons.mp hnd
    by_cases hdk : d = k
    · have hbeq : (d == k) = true := by simp [hdk]
      have hnt : (d, c) ∉ t := by
        intro hmem
        exact hk (hdk ▸ List.mem_map.mpr ⟨(d, c), hmem, rfl⟩)
      have hlk : List.lookup d ((k, v) :: t) = some v := by
        simp [List.lookup, hbeq]
      rw [hlk, List.mem_cons]
      constructor
      · rintro (h | h)
        · rw [Prod.mk.injEq] at h
          rw [h.2]
        · exact absurd h hnt
      · intro h
        left
        rw [Prod.mk.injEq]
        exact ⟨hdk, (Option.some.inj h).symm⟩
    · have hk' : (d == k) = false := by simp [hdk]
      simp [List.lookup, hk', List.mem_cons, hdk,
        mem_pair_iff_lookup t hndt d c]

/-- Membership in the histogram: exactly the days of the window, each
paired with its commit count. -/
theorem buildStats_mem (ds : List String) (d : String) (c : Nat) :
    (d, c) ∈ buildStats ds ↔ d ∈ ds ∧ c = ds.count d := by
  have hnd : ((buildStats ds).map Prod.fst).Nodup :=
    buildStats_keys_nodup ds [] (by simp)
  rw [mem_pair_iff_lookup (buildStats ds) hnd d c, buildStats_lookup]
  by_cases hd : d ∈ ds
  · simp [hd, eq_comm]
  · simp [hd]

/-- With a nonempty window the result is the sorted histogram and its
first key. -/
theorem getGitActivity_eq_of_nonempty (logLines : List String)
    (fb : Option String) (hne : windowDates logLines ≠ []) :
    getGitActivity logLines fb =
      (((buildStats (windowDates logLines)).mergeSort
          (fun a b => decide (b.1 ≤ a.1))).head?.map (fun s => s.1),
        (buildStats (windowDates logLines)).mergeSort
          (fun a b => decide (b.1 ≤ a.1))) := by
  have hE : (windowDates logLines).isEmpty = false := by
    cases h : windowDates logLines with
    | nil => exact absurd h hne
    | cons a t => rfl
  simp [getGitActivity, hE]

/-- The descending comparator of the activity sort is transitive and
total, so the sorted histogram is pairwise descending. -/
theorem sortedStats_pairwise (l : List (String × Nat)) :
    (l.mergeSort (fun a b => decide (b.1 ≤ a.1))).Pairwise
      (fun a b => decide (b.1 ≤ a.1) = true) := by
  have htrans : ∀ a b c : String × Nat, decide (b.1 ≤ a.1) = true →
      decide (c.1 ≤ b.1) = true → decide (c.1 ≤ a.1) = true := by
    intro a b c hab hbc
    rw [decide_eq_true_eq] at hab hbc ⊢
    exact le_trans hbc hab
  have htotal : ∀ a b : String × Nat,
      (decide (b.1 ≤ a.1) || decide (a.1 ≤ b.1)) = true := by
    intro a b
    rcases le_total b.1 a.1 with h | h
    · simp [h]
    · simp [h]
  exact @List.sorted_mergeSort (String × Nat) (fun a b => decide (b.1 ≤ a.1))
    htrans htotal l

/-- The returned bucket list is a permutation of the histogram. -/
theorem getGitActivity_stats_perm (logLines : List String)
    (fb : Option String) (hne : windowDates logLines ≠ []) :
    (getGitActivity logLines fb).2.Perm (buildStats (windowDates logLines)) := by
  rw [getGitActivity_eq_of_nonempty logLines fb hne]
  exact List.mergeSort_perm (buildStats (windowDates logLines)) _

/-- With a nonempty window the reported last activity is the maximum
window day under the string order. -/
theorem getGitActivity_max (logLines : List String) (fb : Option String)
    (hne : windowDates logLines ≠ []) :
    ∃ m, (getGitActivity logLines fb).1 = some m ∧
      m ∈ windowDates logLines ∧ ∀ d ∈ windowDates logLines, d ≤ m := by
  obtain ⟨d0, hd0⟩ := List.exists_mem_of_ne_nil _ hne
  have hbs0 : (d0, (windowDates logLines).count d0) ∈
      buildStats (windowDates logLines) :=
    (buildStats_mem _ d0 _).mpr ⟨hd0, rfl⟩
  have hperm := List.mergeSort_perm (buildStats (windowDates logLines))
    (fun a b : String × Nat => decide (b.1 ≤ a.1))
  have hpair := sortedStats_pairwise (buildStats (windowDates logLines))
  rw [getGitActivity_eq_of_nonempty logLines fb hne]
  cases hS : (buildStats (windowDates logLines)).mergeSort
      (fun a b => decide (b.1 ≤ a.1)) with
  | nil =>
    rw [hS] at hperm
    exact absurd (hperm.symm.mem_iff.mp hbs0) (List.not_mem_nil _)
  | cons m0 tail =>
    rw [hS] at hperm hpair
    refine ⟨m0.1, by simp, ?_, ?_⟩
    · have : m0 ∈ buildStats (windowDates logLines) :=
        hperm.mem_iff.mp (List.mem_cons_self m0 tail)
      exact ((buildStats_mem _ m0.1 m0.2).mp this).1
    · intro d hd
      have hdbs : (d, (windowDates logLines).count d) ∈
          buildStats (windowDates logLines) :=
        (buildStats_mem _ d _).mpr ⟨hd, rfl⟩
      have hdS : (d, (windowDates logLines).count d) ∈ m0 :: tail :=
        hperm.mem_iff.mpr hdbs
      rcases List.mem_cons.mp hdS with heq | htail
      · rw [show d = m0.1 from congrArg Prod.fst heq]
      · have := (List.pairwise_cons.mp hpair).1 _ htail
        rw [decide_eq_true_eq] at this
        exact this

/-- C4: for a nonempty trailing window, the returned buckets are exactly
one per calendar day of the window carrying that day's commit count, the
reported last activity is the maximum day under the ISO-string order,
and the reported last activity is invariant under reordering of the
commit dates. -/
theorem getGitActivity_histogram (logLines : List String) (fb : Option String)
    (hne : windowDates logLines ≠ []) :
    (∀ d c, ((d, c) ∈ (getGitActivity logLines fb).2 ↔
        (d ∈ windowDates logLines ∧ c = (windowDates logLines).count d))) ∧
    (∃ m, (getGitActivity logLines fb).1 = some m ∧
        m ∈ windowDates logLines ∧ ∀ d ∈ windowDates logLines, d ≤ m) ∧
    (∀ logLines2 : List String,
        (windowDates logLines).Perm (windowDates logLines2) →
        (getGitActivity logLines2 fb).1 = (getGitActivity logLines fb).1) := by
  refine ⟨?_, getGitActivity_max logLines fb hne, ?_⟩
  · intro d c
    rw [(getGitActivity_stats_perm logLines fb hne).mem_iff, buildStats_mem]
  · intro l2 hperm
    have hne2 : windowDates l2 ≠ [] := by
      intro h
      rw [h] at hperm
      exact hne hperm.eq_nil
    obtain ⟨m1, hm1, hm1mem, hm1max⟩ := getGitActivity_max logLines fb hne
    obtain ⟨m2, hm2, hm2mem, hm2max⟩ := getGitActivity_max l2 fb hne2
    have h12 : m1 ≤ m2 := hm2max m1 (hperm.mem_iff.mp hm1mem)
    have h21 : m2 ≤ m1 := hm1max m2 (hperm.mem_iff.mpr hm2mem)
    rw [hm2, hm1, le_antisymm h21 h12]

/-- Witness for C4 on the spec example: dates 2024-01-01 (twice) and
2024-01-02 give buckets {2024-01-01: 2, 2024-01-02: 1} and last
activity 2024-01-02. -/
theorem getGitActivity_histogram_witness :
    ("2024-01-01", 2) ∈
      (getGitActivity ["2024-01-01", "2024-01-01", "2024-01-02"] none).2 ∧
    ("2024-01-02", 1) ∈
      (getGitActivity ["2024-01-01", "2024-01-01", "2024-01-02"] none).2 ∧
    (getGitActivity ["2024-01-01", "2024-01-01", "2024-01-02"] none).1 =
      some "2024-01-02" := by
  have hth := getGitActivity_histogram ["2024-01-01", "2024-01-01", "2024-01-02"]
    none (by decide)
  refine ⟨(hth.1 "2024-01-01" 2).mpr ⟨by decide, by decide⟩,
    (hth.1 "2024-01-02" 1).mpr ⟨by decide, by decide⟩, ?_⟩
  obtain ⟨m, h1, h2, h3⟩ := hth.2.1
  have hw : windowDates ["2024-01-01", "2024-01-01", "2024-01-02"] =
      ["2024-01-01", "2024-01-01", "2024-01-02"] := by decide
  have hm2 := h3 "2024-01-02" (by decide)
  rw [hw] at h2
  have hcases : m = "2024-01-01" ∨ m = "2024-01-01" ∨ m = "2024-01-02" := by
    simpa using h2
  rcases hcases with rfl | rfl | rfl
  · exact absurd hm2 (by rw [String.le_iff_toList_le]; decide)
  · exact absurd hm2 (by rw [String.le_iff_toList_le]; decide)
  · exact h1

/-! ## Filesystem fallback activity (getFileActivity in src/activity.ts) -/

/-- A filesystem subtree as seen by the fallback walk: a file with its
`stats.mtimeMs`, or a directory with whether its `fs.readdir` succeeds
and its children. -/
inductive FsTree where
  | file (name : String) (mtimeMs : Nat)
  | dir (name : String) (readable : Bool) (children : List FsTree)
deriving Repr

/-- The entry name. -/
def FsTree.entryName : FsTree → String
  | .file n _ => n
  | .dir n _ _ => n

/-- The skip set of the walk:
`name.startsWith('.') || name === 'node_modules' || name === 'dist' || name === 'build' || name === 'coverage'`. -/
def skipName (n : String) : Bool :=
  strStartsWith n "." || decide (n = "node_modules") || decide (n = "dist") ||
    decide (n = "build") || decide (n = "coverage")

mutual
/-- The contribution of one non-skipped entry to `latestMtimeMs`: a file
contributes its mtime, a readable directory the walk of its children, an
unreadable directory nothing (its `readdir` throws and the error is
ignored). -/
def walkNode : FsTree → Nat
  | .file _ m => m
  | .dir _ readable cs => if readable then walkList cs else 0

/-- The loop over the entries of one readable directory, tracking the
running maximum of `mtimeMs` (initially 0); skipped names contribute
nothing. -/
def walkList : List FsTree → Nat
  | [] => 0
  | c :: cs => max (if skipName c.entryName then 0 else walkNode c) (walkList cs)
end

/-- `getFileActivity`: walk the root directory, then map the final
`latestMtimeMs` to the result, with the initial value 0 mapped to null
(`if (latestMtimeMs === 0) return null`).  Walking a non-directory root
contributes nothing (its readdir throws and is ignored). -/
def getFileActivity (root : FsTree) : Option Nat :=
  let m :=
    match root with
    | .file _ _ => 0
    | .dir _ readable cs => if readable then walkList cs else 0
  if m = 0 then none else some m

mutual
/-- Written from the spec for comparison with the code: the maximum
modification time over the files visited by the walk (same skip set,
same readability behaviour), `none` when no file is visited. -/
def filesMax? : FsTree → Option Nat
  | .file _ m => some m
  | .dir _ readable cs => if readable then filesMaxList? cs else none

/-- Spec-side maximum over the visited files of a directory's entries. -/
def filesMaxList? : List FsTree → Option Nat
  | [] => none
  | c :: cs =>
    match (if skipName c.entryName then none else filesMax? c), filesMaxList? cs with
    | none, r => r
    | some a, none => some a
    | some a, some b => some (max a b)
end

/-- Written from the spec: the fallback result should be the maximum
modification time over the visited files of the root directory, absent
when there is none. -/
def specFileActivity (root : FsTree) : Option Nat :=
  match root with
  | .file _ _ => none
  | .dir _ readable cs => if readable then filesMaxList? cs else none

mutual
theorem walkNode_eq_filesMax : ∀ t : FsTree, walkNode t = (filesMax? t).getD 0
  | .file _ m => rfl
  | .dir _ readable cs => by
    rw [walkNode, filesMax?]
    by_cases hr : readable = true
    · rw [if_pos hr, if_pos hr, walkList_eq_filesMaxList cs]
    · rw [if_neg hr, if_neg hr]
      rfl

theorem walkList_eq_filesMaxList :
    ∀ cs : List FsTree, walkList cs = (filesMaxList? cs).getD 0
  | [] => rfl
  | c :: cs => by
    rw [walkList, filesMaxList?, walkList_eq_filesMaxList cs]
    by_cases hs : skipName c.entryName = true
    · rw [if_pos hs, if_pos hs]
      cases filesMaxList? cs <;> simp
    · rw [if_neg hs, if_neg hs, walkNode_eq_filesMax c]
      cases filesMax? c <;> cases filesMaxList? cs <;> simp
end

theorem walkList_append :
    ∀ cs1 cs2 : List FsTree,
      walkList (cs1 ++ cs2) = max (walkList cs1) (walkList cs2)
  | [], cs2 => by simp [walkList]
  | c :: cs1, cs2 => by
    rw [List.cons_append, walkList, walkList, walkList_append cs1 cs2,
      Nat.max_assoc]

/-- Counterexample to C8 as stated: a readable tree holding a single
visited file whose `mtimeMs` is 0 (the epoch).  The maximum modification
time over the tree exists and is 0, but the walk returns null because 0
is also its nothing-seen sentinel. -/
theorem getFileActivity_zero_mtime_counterexample :
    getFileActivity (FsTree.dir "p" true [FsTree.file "a" 0]) = none ∧
    specFileActivity (FsTree.dir "p" true [FsTree.file "a" 0]) = some 0 := by
  have hs : skipName "a" = false := by decide
  constructor
  · simp [getFileActivity, walkList, walkNode, FsTree.entryName, hs]
  · simp [specFileActivity, filesMaxList?, filesMax?, FsTree.entryName, hs]

/-- C8 amended: the fallback walk returns the maximum modification time
over the visited files whenever that maximum is nonzero, and null when
there is no visited file or when the maximum is 0 (0 doubles as the
nothing-seen sentinel); entries in the skip set contribute nothing, and
an unreadable subdirectory is skipped without affecting the rest of the
walk. -/
theorem getFileActivity_fallback (root : FsTree) :
    (specFileActivity root = none → getFileActivity root = none) ∧
    (∀ m, specFileActivity root = some m → m ≠ 0 →
      getFileActivity root = some m) ∧
    (∀ m, specFileActivity root = some m → m = 0 →
      getFileActivity root = none) ∧
    (∀ n r cs1 cs2 u, skipName u.entryName = true →
      getFileActivity (FsTree.dir n r (cs1 ++ u :: cs2)) =
        getFileActivity (FsTree.dir n r (cs1 ++ cs2))) ∧
    (∀ n r cs1 cs2 nm rc,
      getFileActivity (FsTree.dir n r (cs1 ++ FsTree.dir nm false rc :: cs2)) =
        getFileActivity (FsTree.dir n r (cs1 ++ cs2))) := by
  have hwalk : ∀ t : FsTree, getFileActivity t =
      (match specFileActivity t with
        | none => none
        | some m => if m = 0 then none else some m) := by
    intro t
    cases t with
    | file n m => rfl
    | dir n readable cs =>
      rw [getFileActivity, specFileActivity]
      by_cases hr : readable = true
      · rw [if_pos hr, if_pos hr, walkList_eq_filesMaxList cs]
        cases h : filesMaxList? cs with
        | none => simp
        | some m =>
          by_cases hm : m = 0
          · simp [hm]
          · simp [hm]
      · rw [if_neg hr, if_neg hr]
        rfl
  refine ⟨?_, ?_, ?_, ?_, ?_⟩
  · intro h
    rw [hwalk, h]
  · intro m h hm
    rw [hwalk, h]
    simp [hm]
  · intro m h hm
    rw [hwalk, h]
    simp [hm]
  · intro n r cs1 cs2 u hu
    rw [getFileActivity, getFileActivity]
    by_cases hr : r = true
    · rw [if_pos hr, if_pos hr, walkList_append, walkList_append, walkList,
        if_pos hu]
      simp
    · rw [if_neg hr, if_neg hr]
  · intro n r cs1 cs2 nm rc
    rw [getFileActivity, getFileActivity]
    by_cases hr : r = true
    · rw [if_pos hr, if_pos hr, walkList_append, walkList_append, walkList]
      have : (if skipName (FsTree.dir nm false rc).entryName then 0
          else walkNode (FsTree.dir nm false rc)) = 0 := by
        by_cases hs : skipName (FsTree.dir nm false rc).entryName = true
        · rw [if_pos hs]
        · rw [if_neg hs, walkNode]
          simp
      rw [this]
      simp
    · rw [if_neg hr, if_neg hr]

/-- Witness for C8 (amended) on a concrete tree: files with modification
times 5 and 9 under a nested readable directory give 9; the walk also
ignores a hidden file, a node_modules directory, and an unreadable
subdirectory on the way. -/
theorem getFileActivity_fallback_witness :
    getFileActivity
      (FsTree.dir "p" true
        [FsTree.file ".env" 77,
         FsTree.dir "node_modules" true [FsTree.file "x" 99],
         FsTree.dir "locked" false [FsTree.file "y" 88],
         FsTree.file "a" 5,
         FsTree.dir "s" true [FsTree.file "b" 9]]) = some 9 := by
  refine (getFileActivity_fallback _).2.1 9 ?_ (by decide)
  have h1 : skipName ".env" = true := by decide
  have h2 : skipName "node_modules" = true := by decide
  have h3 : skipName "locked" = false := by decide
  have h4 : skipName "a" = false := by decide
  have h5 : skipName "s" = false := by decide
  have h6 : skipName "b" = false := by decide
  simp [specFileActivity, filesMaxList?, filesMax?, FsTree.entryName,
    h1, h2, h3, h4, h5, h6]

/-! ## Activity stats (insertActivityStats in src/db.ts) -/

/-- A row of the `activity_stats` table, whose schema declares
`UNIQUE(project_id, date)`. -/
structure ActivityStat where
  project_id : Nat
  date : String
  changes_count : Nat
deriving DecidableEq, Repr

/-- One run of the prepared statement `INSERT INTO activity_stats
(project_id, date, changes_count) VALUES (...) ON CONFLICT(project_id,
date) DO UPDATE SET changes_count = excluded.changes_count`. -/
def upsertActivityStat (tbl : List ActivityStat) (pid : Nat) (d : String)
    (c : Nat) : List ActivityStat :=
  keyedUpsert (fun s => (s.project_id, s.date))
    (fun old s => { old with changes_count := s.changes_count }) tbl ⟨pid, d, c⟩

/-- `insertActivityStats`: the transaction running the statement once per
incoming stat, in order. -/
def insertActivityStats (tbl : List ActivityStat) (pid : Nat)
    (stats : List (String × Nat)) : List ActivityStat :=
  stats.foldl (fun t s => upsertActivityStat t pid s.1 s.2) tbl

/-- C9: `(project_id, date)` keys stay unique across aggregation runs;
an aggregation run that produces a count for a day that already has a
row replaces the stored count with the new one (it never sums them); and
rows for other projects or days are untouched. -/
theorem insertActivityStats_lww (tbl : List ActivityStat) (pid : Nat)
    (stats : List (String × Nat))
    (hnd : (tbl.map (fun s => (s.project_id, s.date))).Nodup)
    (hsnd : (stats.map Prod.fst).Nodup) :
    ((insertActivityStats tbl pid stats).map
        (fun s => (s.project_id, s.date))).Nodup ∧
    (∀ d c, (d, c) ∈ stats →
      (insertActivityStats tbl pid stats).filter
          (fun s => decide ((s.project_id, s.date) = (pid, d))) =
        [⟨pid, d, c⟩]) ∧
    (∀ p2 d2, (p2 ≠ pid ∨ d2 ∉ stats.map Prod.fst) →
      (insertActivityStats tbl pid stats).filter
          (fun s => decide ((s.project_id, s.date) = (p2, d2))) =
        tbl.filter (fun s => decide ((s.project_id, s.date) = (p2, d2)))) := by
  have hmk : ∀ a b : ActivityStat,
      (a.project_id, a.date) = (b.project_id, b.date) →
      (((fun old s => { old with changes_count := s.changes_count } :
          ActivityStat → ActivityStat → ActivityStat) a b).project_id,
        ((fun old s => { old with changes_count := s.changes_count } :
          ActivityStat → ActivityStat → ActivityStat) a b).date) =
        (b.project_id, b.date) := fun a b h => h
  have hfold : insertActivityStats tbl pid stats =
      (stats.map (fun s => (⟨pid, s.1, s.2⟩ : ActivityStat))).foldl
        (keyedUpsert (fun s => (s.project_id, s.date))
          (fun old s => { old with changes_count := s.changes_count })) tbl := by
    rw [insertActivityStats, List.foldl_map]
    rfl
  have hxs : ((stats.map (fun s => (⟨pid, s.1, s.2⟩ : ActivityStat))).map
      (fun s => (s.project_id, s.date))).Nodup := by
    rw [List.map_map]
    have : ((fun s => (s.project_id, s.date)) ∘
        (fun s : String × Nat => (⟨pid, s.1, s.2⟩ : ActivityStat))) =
        ((fun d => (pid, d)) ∘ Prod.fst) := rfl
    rw [this, ← List.map_map]
    exact hsnd.map (fun a b h => (Prod.mk.injEq _ _ _ _ ▸ h : _ ∧ _).2)
  refine ⟨?_, ?_, ?_⟩
  · rw [hfold]
    exact foldl_keyedUpsert_nodup _ _ hmk _ tbl hnd
  · intro d c hdc
    have hx : (⟨pid, d, c⟩ : ActivityStat) ∈
        stats.map (fun s => (⟨pid, s.1, s.2⟩ : ActivityStat)) :=
      List.mem_map.mpr ⟨(d, c), hdc, rfl⟩
    have hmem := foldl_keyedUpsert_filter_mem (fun s => (s.project_id, s.date))
      (fun old s => { old with changes_count := s.changes_count }) hmk
      _ _ hx hxs tbl hnd
    rcases nodup_filter_key (fun s => (s.project_id, s.date)) tbl hnd
        (pid, d) with h0 | ⟨old, hold, holdkey⟩
    · rw [hfold]
      exact hmem.1 h0
    · rw [hfold]
      have := hmem.2 old hold
      obtain ⟨op, od, oc⟩ := old
      obtain ⟨h1, h2⟩ := Prod.mk.injEq _ _ _ _ ▸ holdkey
      subst h1
      subst h2
      exact this
  · intro p2 d2 hp
    rw [hfold]
    refine foldl_keyedUpsert_filter_untouched _ _ hmk (p2, d2) _ tbl ?_
    intro y hy
    rcases List.mem_map.mp hy with ⟨s, hs, rfl⟩
    rcases hp with hp | hp
    · intro hk
      exact hp ((Prod.mk.injEq _ _ _ _ ▸ hk : _ ∧ _).1).symm
    · intro hk
      exact hp (((Prod.mk.injEq _ _ _ _ ▸ hk : _ ∧ _).2) ▸
        List.mem_map.mpr ⟨s, hs, rfl⟩)

/-- Witness for C9: a stored count 5 for day 2024-01-01 is replaced by
the new count 2 (not summed to 7), and the new day 2024-01-02 gets its
own single row. -/
theorem insertActivityStats_lww_witness :
    (insertActivityStats [⟨1, "2024-01-01", 5⟩] 1
        [("2024-01-01", 2), ("2024-01-02", 1)]).filter
        (fun s => decide ((s.project_id, s.date) = (1, "2024-01-01"))) =
      [⟨1, "2024-01-01", 2⟩] :=
  (insertActivityStats_lww [⟨1, "2024-01-01", 5⟩] 1
      [("2024-01-01", 2), ("2024-01-02", 1)]
      (by decide) (by decide)).2.1 "2024-01-01" 2 (by decide)

/-! ## Activity analysis entry point (analyzeProjectActivity in src/activity.ts) -/

/-- The observable outcome of one `analyzeProjectActivity` call: the
project table, the stats table, whether the project-not-found diagnostic
was written to stderr, and the exception propagated to the caller
(`none` when the function returns normally). -/
structure AnalyzeOutcome where
  projects : List Project
  stats : List ActivityStat
  notFoundLogged : Bool
  threw : Option String
deriving DecidableEq, Repr

/-- `analyzeProjectActivity` over the store state.  `getProjectByPath`
is the row with the given path; when there is none the function writes
`Project not found in DB for path: ...` to stderr and returns (no throw,
no writes).  Otherwise the activity signals (the results of
`getGitActivity` or `getFileActivity`, supplied as inputs) conditionally
rewrite the project row (only when the last-activity date changed) and
batch-upsert the per-day counts (only when some exist and the row has a
truthy id — in JavaScript `0` is falsy). -/
def analyzeProjectActivity (projects : List Project) (tbl : List ActivityStat)
    (path : String) (gitData : Option String × List (String × Nat))
    (fileData : Option String) : AnalyzeOutcome :=
  match projects.find? (fun p => decide (p.path = path)) with
  | none =>
      { projects := projects, stats := tbl, notFoundLogged := true, threw := none }
  | some project =>
    let lastActivity := if project.is_git then gitData.1 else fileData
    let stats := if project.is_git then gitData.2 else []
    let projects1 :=
      match lastActivity with
      | some d =>
          if project.last_activity_date ≠ some d then
            upsertProject projects { project with last_activity_date := some d }
          else projects
      | none => projects
    let tbl1 :=
      if stats.isEmpty then tbl
      else
        match project.id with
        | some pid => if pid ≠ 0 then insertActivityStats tbl pid stats else tbl
        | none => tbl
    { projects := projects1, stats := tbl1, notFoundLogged := false, threw := none }

/-- Counterexample to C10 as stated: requesting analysis for a path with
no stored record does not signal any condition to the caller — the
function merely logs and returns normally (`threw = none`, so the tool
handler reports success), though indeed no write is performed. -/
theorem analyzeProjectActivity_notfound_counterexample :
    List.find? (fun p => decide (p.path = "/home/u/app"))
      ([] : List Project) = none ∧
    analyzeProjectActivity [] [] "/home/u/app" (none, []) none =
      { projects := [], stats := [], notFoundLogged := true, threw := none } :=
  ⟨rfl, rfl⟩

/-- C10 amended: when no stored record matches the requested path, the
not-found condition is logged to stderr and the function returns
normally — no error is signaled to the caller (the MCP tool answers with
a success message) — and no Project update or ActivityStat insertion is
performed. -/
theorem analyzeProjectActivity_notfound (projects : List Project)
    (tbl : List ActivityStat) (path : String)
    (g : Option String × List (String × Nat)) (f : Option String)
    (hnf : projects.find? (fun p => decide (p.path = path)) = none) :
    analyzeProjectActivity projects tbl path g f =
      { projects := projects, stats := tbl, notFoundLogged := true,
        threw := none } := by
  rw [analyzeProjectActivity]
  rw [hnf]

/-- Witness for the amended C10 at a concrete store and path. -/
theorem analyzeProjectActivity_notfound_witness :
    analyzeProjectActivity [] [] "/p" (none, []) none =
      { projects := [], stats := [], notFoundLogged := true, threw := none } :=
  analyzeProjectActivity_notfound [] [] "/p" (none, []) none rfl
